import Mathlib

/-!
Verification of the two algorithmic cores of the nsdockerwine2 repository:

* the INF section scanner / rewrite driver `infilt` (a higher-order filter
  over a byte buffer organised as `[Name]` sections with opaque lines), and
* the dependency-closure pruner loop that repeatedly drops modules whose
  dependencies are no longer present.

Buffers are modelled as `List Char` (Go `[]byte`, one element per byte of the
ASCII-compatible text the tool operates on).  Go `error` values and `panic`s
are modelled as tagged constructors; stateful loops are explicit recursion.
-/

/-- Convert a string literal to the `List Char` buffer representation. -/
def chars (s : String) : List Char := s.data

/- ### Line splitting (Go `bytes.Lines`)

`bytes.Lines` yields the newline-terminated lines of the buffer, each
including its terminating newline; an empty buffer yields no lines; if the
buffer does not end in a newline, the final line does not either. -/

/-- Accumulator worker for `linesGo`: `acc` is the partial current line. -/
def linesAux (acc : List Char) : List Char → List (List Char)
  | [] => if acc = [] then [] else [acc]
  | c :: cs => if c = '\n' then (acc ++ ['\n']) :: linesAux [] cs else linesAux (acc ++ [c]) cs

/-- Model of Go `bytes.Lines` over the whole buffer. -/
def linesGo (s : List Char) : List (List Char) := linesAux [] s

theorem linesAux_flatten (cs : List Char) : ∀ acc, (linesAux acc cs).flatten = acc ++ cs := by
  induction cs with
  | nil => intro acc; by_cases h : acc = [] <;> simp [linesAux, h]
  | cons c cs ih =>
    intro acc
    by_cases h : c = '\n' <;> simp [linesAux, h, ih]

theorem linesGo_flatten (s : List Char) : (linesGo s).flatten = s := by
  simpa using linesAux_flatten s []

theorem linesAux_ne_nil (cs : List Char) : ∀ acc, ∀ l ∈ linesAux acc cs, l ≠ [] := by
  induction cs with
  | nil =>
    intro acc l hl
    by_cases h : acc = [] <;> simp [linesAux, h] at hl
    simp [hl, h]
  | cons c cs ih =>
    intro acc l hl
    by_cases h : c = '\n' <;> simp [linesAux, h] at hl
    · rcases hl with h1 | h1
      · simp [h1]
      · exact ih [] l h1
    · exact ih (acc ++ [c]) l hl

theorem linesGo_ne_nil (s : List Char) : ∀ l ∈ linesGo s, l ≠ [] :=
  linesAux_ne_nil s []

theorem linesAux_ends (cs : List Char) :
    ∀ acc, cs.getLast? = some '\n' → ∀ l ∈ linesAux acc cs, l.getLast? = some '\n' := by
  induction cs with
  | nil => intro acc h; simp at h
  | cons c cs ih =>
    intro acc h l hl
    by_cases hc : c = '\n'
    · simp only [linesAux, if_pos hc] at hl
      rcases List.mem_cons.mp hl with h1 | h1
      · simp [h1]
      · cases cs with
        | nil => simp [linesAux] at h1
        | cons d ds => exact ih [] (by simpa using h) l h1
    · simp only [linesAux, if_neg hc] at hl
      cases cs with
      | nil =>
        simp at h
        exact absurd h hc
      | cons d ds => exact ih (acc ++ [c]) (by simpa using h) l hl

theorem linesGo_ends (s : List Char) (h : s.getLast? = some '\n') :
    ∀ l ∈ linesGo s, l.getLast? = some '\n' :=
  linesAux_ends s [] h

theorem linesAux_split (cs : List Char) :
    ∀ acc, acc ++ cs ≠ [] → (acc ++ cs).getLast? ≠ some '\n' →
      ∃ ls l, linesAux acc cs = ls ++ [l] ∧ (∀ x ∈ ls, x.getLast? = some '\n') ∧
        l ≠ [] ∧ l.getLast? ≠ some '\n' := by
  induction cs with
  | nil =>
    intro acc h1 h2
    simp only [List.append_nil] at h1 h2
    refine ⟨[], acc, ?_, by simp, h1, h2⟩
    simp [linesAux, h1]
  | cons c cs ih =>
    intro acc h1 h2
    by_cases hc : c = '\n'
    · subst hc
      have hcs : cs ≠ [] := by
        intro h
        subst h
        simp at h2
      have h3 : ([] : List Char) ++ cs ≠ [] := by simpa using hcs
      have h4 : (([] : List Char) ++ cs).getLast? ≠ some '\n' := by
        simp only [List.nil_append]
        intro h
        apply h2
        cases cs with
        | nil => exact absurd rfl hcs
        | cons d ds => simp [List.getLast?_append, h]
      obtain ⟨ls, l, h5, h6, h7, h8⟩ := ih [] h3 h4
      refine ⟨(acc ++ ['\n']) :: ls, l, ?_, ?_, h7, h8⟩
      · simp [linesAux, h5]
      · intro x hx
        rcases List.mem_cons.mp hx with h9 | h9
        · simp [h9]
        · exact h6 x h9
    · have h3 : (acc ++ [c]) ++ cs ≠ [] := by simp
      have h4 : ((acc ++ [c]) ++ cs).getLast? ≠ some '\n' := by
        rw [List.append_assoc]
        simpa using h2
      obtain ⟨ls, l, h5, h6, h7, h8⟩ := ih (acc ++ [c]) h3 h4
      exact ⟨ls, l, by simp [linesAux, hc, h5], h6, h7, h8⟩

/- ### Header parsing (src/unnamed/part_000 lines 93-101)

A line opens a section when it is exactly `[` + name + `]` + newline:
Go `bytes.CutPrefix(line, "[")` followed by `bytes.CutSuffix(rest, "]\n")`. -/

/-- Model of Go `bytes.CutSuffix`: strip `suf` from the end of `l` if present. -/
def cutSuffix (suf l : List Char) : Option (List Char) :=
  if suf.length ≤ l.length ∧ l.drop (l.length - suf.length) = suf then
    some (l.take (l.length - suf.length))
  else none

theorem cutSuffix_eq_some {suf l mid : List Char} :
    cutSuffix suf l = some mid ↔ l = mid ++ suf := by
  constructor
  · intro h
    unfold cutSuffix at h
    split at h
    · rename_i hc
      cases h
      conv_lhs => rw [← List.take_append_drop (l.length - suf.length) l]
      rw [hc.2]
    · cases h
  · intro h
    subst h
    unfold cutSuffix
    have h1 : (mid ++ suf).length - suf.length = mid.length := by simp
    rw [h1]
    simp

/-- Model of the header test in the scanner: `[` + name + `]` + newline. -/
def parseHeader (l : List Char) : Option (List Char) :=
  match l with
  | [] => none
  | c :: rest => if c = '[' then cutSuffix [']', '\n'] rest else none

theorem parseHeader_eq_some {l name : List Char} :
    parseHeader l = some name ↔ l = '[' :: (name ++ [']', '\n']) := by
  constructor
  · intro h
    match l with
    | [] => simp [parseHeader] at h
    | c :: rest =>
      simp only [parseHeader] at h
      split at h
      · rename_i hc
        rw [cutSuffix_eq_some] at h
        rw [hc, h]
      · cases h
  · intro h
    subst h
    simp [parseHeader, cutSuffix_eq_some]

theorem parseHeader_ends {l name : List Char} (h : parseHeader l = some name) :
    l.getLast? = some '\n' := by
  rw [parseHeader_eq_some] at h
  subst h
  have h1 : '[' :: (name ++ [']', '\n']) = ('[' :: name ++ [']']) ++ ['\n'] := by simp
  rw [h1, List.getLast?_concat]

theorem parseHeader_none_of_not_newline {l : List Char} (h : l.getLast? ≠ some '\n') :
    parseHeader l = none := by
  cases h2 : parseHeader l with
  | none => rfl
  | some name => exact absurd (parseHeader_ends h2) h

/- ### The scanner (src/unnamed/part_000 lines 90-106)

Iterates over the lines of the buffer; a header line yields `(name, "")` and
sets the current section; any other line yields `(cur, line)`. -/

/-- One scanned record: `(section, line)`. -/
abbrev Rec := List Char × List Char

/-- Scanner worker: `cur` is the current section name. -/
def scanAux (cur : List Char) : List (List Char) → List Rec
  | [] => []
  | line :: rest =>
    match parseHeader line with
    | some name => (name, []) :: scanAux name rest
    | none => (cur, line) :: scanAux cur rest

/-- Section context after the scanner has consumed the given lines. -/
def curAfter (cur : List Char) : List (List Char) → List Char
  | [] => cur
  | line :: rest =>
    curAfter (match parseHeader line with | some name => name | none => cur) rest

/-- The record sequence the scanner yields for a buffer (the `in` closure). -/
def scanGo (buf : List Char) : List Rec := scanAux [] (linesGo buf)

theorem scanAux_append (l₁ l₂ : List (List Char)) :
    ∀ cur, scanAux cur (l₁ ++ l₂) = scanAux cur l₁ ++ scanAux (curAfter cur l₁) l₂ := by
  induction l₁ with
  | nil => intro cur; simp [scanAux, curAfter]
  | cons line rest ih =>
    intro cur
    cases h : parseHeader line <;> simp [scanAux, curAfter, h, ih]

/- ### The rewrite driver (src/unnamed/part_000 lines 107-127)

`emit(section, line)` panics when both arguments are empty or when a
non-empty line lacks its trailing newline; it writes a `[section]` header
when the section is non-empty and either the line is empty (pure header
emission) or differs from the last written section; then it writes the line.
The output buffer is the concatenation of the written chunks. -/

/-- The two `panic` conditions inside `emit` (lines 110-115):
`emptyEmit` is `panic("emitted empty section/line")`,
`lineNoNewline` is `panic("line must end with newline")`. -/
inductive GoPanic
  | emptyEmit
  | lineNoNewline
deriving DecidableEq

/-- The `error` values the filter can return (lines 87-88 and 123-125):
`fmtNewlines` is `fmt.Errorf("expected linux-style newlines")`;
`filterInf e` is `fmt.Errorf("filter inf: %w", e)` wrapping the
transformation function's own error `e`. -/
inductive GoErr
  | fmtNewlines
  | filterInf (msg : String)
deriving DecidableEq

/-- Overall result of the `infilt` closure: a successful output buffer, a
returned error, or a runtime panic. -/
inductive InfiltResult
  | ok (out : List Char)
  | err (e : GoErr)
  | panicked (p : GoPanic)
deriving DecidableEq

/-- One write the driver performs on the output `bytes.Buffer`: a
`[section]` header line (line 117) or a content line (line 121). -/
inductive Chunk
  | header (sec : List Char)
  | content (line : List Char)
deriving DecidableEq

/-- Serialisation of one written chunk. -/
def renderChunk : Chunk → List Char
  | .header sec => '[' :: (sec ++ [']', '\n'])
  | .content line => line

/-- The output buffer as the concatenation of all written chunks. -/
def renderChunks (cs : List Chunk) : List Char := (cs.map renderChunk).flatten

/-- Go `strings.HasSuffix(line, "\n")`. -/
def endsNewline (l : List Char) : Bool := l.getLast? = some '\n'

/-- The fold of `emit` over the calls the transformation function makes, in
call order.  `cur` is the section header last written (line 108).  Returns
the chunks written and the final `cur`, or the first panic. -/
def emitChunks (cur : List Char) : List Rec → Except GoPanic (List Chunk × List Char)
  | [] => .ok ([], cur)
  | (sec, line) :: rest =>
    if sec = [] ∧ line = [] then .error .emptyEmit
    else if line ≠ [] ∧ ¬ endsNewline line then .error .lineNoNewline
    else if sec ≠ [] ∧ (line = [] ∨ cur ≠ sec) then
      match emitChunks sec rest with
      | .error p => .error p
      | .ok (cs, cfin) =>
        .ok (Chunk.header sec :: ((if line = [] then [] else [Chunk.content line]) ++ cs), cfin)
    else
      match emitChunks cur rest with
      | .error p => .error p
      | .ok (cs, cfin) =>
        .ok ((if line = [] then [] else [Chunk.content line]) ++ cs, cfin)

/-- A transformation function, observationally: from the scanned record
sequence it determines the sequence of `emit` calls it makes (in call
order) and the error it returns, if any. -/
abbrev TransformFn := List Rec → List Rec × Option String

/-- Model of `infilt` (lines 85-128): reject buffers containing `'\r'`,
scan, run the transformation function, fold its emissions, and either
surface a panic, the wrapped error, or the rendered output buffer. -/
def infiltGo (buf : List Char) (fn : TransformFn) : InfiltResult :=
  if '\r' ∈ buf then .err .fmtNewlines
  else
    let r := fn (scanGo buf)
    match emitChunks [] r.1 with
    | .error p => .panicked p
    | .ok (cs, _) =>
      match r.2 with
      | some e => .err (.filterInf e)
      | none => .ok (renderChunks cs)

/-- The pass-through transformation: re-emit every scanned record unchanged
and return no error. -/
def passthroughFn : TransformFn := fun rs => (rs, none)

example : linesGo (chars "[S]\na\n") = [chars "[S]\n", chars "a\n"] := by decide
example : scanGo (chars "[S]\na\nb") = [(chars "S", []), (chars "S", chars "a\n"), (chars "S", chars "b")] := by decide
example : infiltGo (chars "[S]\nkeep,1\n") passthroughFn = .ok (chars "[S]\nkeep,1\n") := by decide
example : infiltGo (chars "[]\n") passthroughFn = .panicked .emptyEmit := by decide
example : infiltGo (chars "abc") passthroughFn = .panicked .lineNoNewline := by decide
example : infiltGo (chars "a\r\n") passthroughFn = .err .fmtNewlines := by decide

theorem emitChunks_append_error {es₁ es₂ : List Rec} {p : GoPanic} :
    ∀ {cur cs c2}, emitChunks cur es₁ = .ok (cs, c2) → emitChunks c2 es₂ = .error p →
      emitChunks cur (es₁ ++ es₂) = .error p := by
  induction es₁ with
  | nil =>
    intro cur cs c2 h1 h2
    simp only [emitChunks] at h1
    cases h1
    simpa using h2
  | cons e rest ih =>
    intro cur cs c2 h1 h2
    obtain ⟨sec, line⟩ := e
    by_cases hc1 : sec = [] ∧ line = []
    · simp [emitChunks, hc1] at h1
    · by_cases hc2 : line ≠ [] ∧ ¬ endsNewline line
      · simp only [emitChunks, if_neg hc1, if_pos hc2] at h1
        cases h1
      · by_cases hc3 : sec ≠ [] ∧ (line = [] ∨ cur ≠ sec)
        · simp only [List.cons_append, emitChunks, if_neg hc1, if_neg hc2, if_pos hc3] at h1 ⊢
          cases h4 : emitChunks sec rest with
          | error q => rw [h4] at h1; cases h1
          | ok v =>
            obtain ⟨cs', cfin⟩ := v
            rw [h4] at h1
            cases h1
            simp only [List.append_eq]
            rw [ih h4 h2]
        · simp only [List.cons_append, emitChunks, if_neg hc1, if_neg hc2, if_neg hc3] at h1 ⊢
          cases h4 : emitChunks cur rest with
          | error q => rw [h4] at h1; cases h1
          | ok v =>
            obtain ⟨cs', cfin⟩ := v
            rw [h4] at h1
            cases h1
            simp only [List.append_eq]
            rw [ih h4 h2]

theorem scan_emit_roundtrip (lines : List (List Char)) :
    ∀ cur, (∀ l ∈ lines, l ≠ [] ∧ l.getLast? = some '\n' ∧ l ≠ ['[', ']', '\n']) →
      ∃ cs, emitChunks cur (scanAux cur lines) = .ok (cs, curAfter cur lines) ∧
        renderChunks cs = lines.flatten := by
  induction lines with
  | nil => intro cur _; exact ⟨[], by simp [scanAux, emitChunks, curAfter], by simp [renderChunks]⟩
  | cons line rest ih =>
    intro cur hwf
    obtain ⟨hne, hnl, hnh⟩ := hwf line (by simp)
    have hwfr : ∀ l ∈ rest, l ≠ [] ∧ l.getLast? = some '\n' ∧ l ≠ ['[', ']', '\n'] :=
      fun l hl => hwf l (by simp [hl])
    cases hph : parseHeader line with
    | some name =>
      have hline : line = '[' :: (name ++ [']', '\n']) := parseHeader_eq_some.mp hph
      have hname : name ≠ [] := by
        intro h
        subst h
        simp at hline
        exact hnh hline
      obtain ⟨cs', h1, h2⟩ := ih name hwfr
      refine ⟨Chunk.header name :: cs', ?_, ?_⟩
      · simp only [scanAux, hph, emitChunks, curAfter]
        rw [if_neg (by simp [hname]), if_neg (by simp), if_pos (by simp [hname]), h1]
        simp
      · simp [renderChunks] at h2 ⊢
        rw [h2, renderChunk, hline]
    | none =>
      obtain ⟨cs', h1, h2⟩ := ih cur hwfr
      refine ⟨Chunk.content line :: cs', ?_, ?_⟩
      · simp only [scanAux, hph, emitChunks, curAfter]
        rw [if_neg (by simp [hne]), if_neg (by simp [endsNewline, hnl]),
          if_neg (by simp [hne]), h1]
        simp [hne]
      · simp [renderChunks] at h2 ⊢
        rw [h2, renderChunk]

/-- A well-formed sectioned input buffer: linux-style newlines only (no
carriage returns), ending in a line terminator (or empty), and containing no
empty-name header line `[]` (whose scanned record would have both fields
empty, a caller programming error by the documented record invariant). -/
def Wellformed (buf : List Char) : Prop :=
  '\r' ∉ buf ∧ (buf = [] ∨ buf.getLast? = some '\n') ∧ ∀ l ∈ linesGo buf, l ≠ ['[', ']', '\n']

instance : DecidablePred Wellformed := fun buf => by
  unfold Wellformed
  infer_instance

/-- Claim C1: for every well-formed sectioned input buffer, running the
rewrite driver with the pass-through transformation function, which re-emits
every scanned record unchanged, yields an output buffer byte-identical to
the input buffer. -/
theorem c1_roundtrip_identity (buf : List Char) (h : Wellformed buf) :
    infiltGo buf passthroughFn = .ok buf := by
  obtain ⟨h1, h2, h3⟩ := h
  have hlines : ∀ l ∈ linesGo buf, l ≠ [] ∧ l.getLast? = some '\n' ∧ l ≠ ['[', ']', '\n'] := by
    intro l hl
    refine ⟨linesGo_ne_nil buf l hl, ?_, h3 l hl⟩
    rcases h2 with h2 | h2
    · subst h2
      simp [linesGo, linesAux] at hl
    · exact linesGo_ends buf h2 l hl
  obtain ⟨cs, hemit, hrender⟩ := scan_emit_roundtrip (linesGo buf) [] hlines
  simp only [infiltGo, if_neg h1, passthroughFn, scanGo, hemit, hrender, linesGo_flatten]

/-- Witness for C1 at a concrete two-section buffer. -/
theorem c1_roundtrip_identity_witness :
    Wellformed (chars "; c\n[S]\nkeep,1\n[T]\nx\n") ∧
      infiltGo (chars "; c\n[S]\nkeep,1\n[T]\nx\n") passthroughFn =
        .ok (chars "; c\n[S]\nkeep,1\n[T]\nx\n") :=
  ⟨by decide, c1_roundtrip_identity _ (by decide)⟩

/-- Claim C10 (counterexample to the claim as stated): the buffer `"[]\nx"`
is non-empty, contains no carriage return, and does not end with a newline,
yet the pass-through rewrite aborts with the `emitted empty section/line`
panic (the empty-name header record is re-emitted first), not the
`line must end with newline` panic the claim names. -/
theorem c10_counterexample :
    chars "[]\nx" ≠ [] ∧ '\r' ∉ chars "[]\nx" ∧ (chars "[]\nx").getLast? ≠ some '\n' ∧
      infiltGo (chars "[]\nx") passthroughFn = .panicked .emptyEmit ∧
      infiltGo (chars "[]\nx") passthroughFn ≠ .panicked .lineNoNewline := by
  decide

/-- Claim C10 (amended): for every non-empty input buffer with no carriage
return, not ending with a newline, and containing no empty-name header line
`[]`, the scanner's final record carries a non-empty line without the
trailing terminator, and the pass-through rewrite aborts with the
`line must end with newline` panic — so round-tripping is only possible for
buffers ending in the line terminator. -/
theorem c10_missing_terminator_abort (buf : List Char)
    (h0 : buf ≠ []) (h1 : '\r' ∉ buf) (h2 : buf.getLast? ≠ some '\n')
    (h3 : ∀ l ∈ linesGo buf, l ≠ ['[', ']', '\n']) :
    (∃ rs sec line, scanGo buf = rs ++ [(sec, line)] ∧ line ≠ [] ∧
      line.getLast? ≠ some '\n') ∧
    infiltGo buf passthroughFn = .panicked .lineNoNewline := by
  obtain ⟨ls, l, hsplit, hends, hlne, hlnl⟩ :=
    linesAux_split buf [] (by simpa using h0) (by simpa using h2)
  have hsplit2 : linesGo buf = ls ++ [l] := hsplit
  have hmemls : ∀ x ∈ ls, x ∈ linesGo buf := by
    intro x hx
    rw [hsplit2]
    exact List.mem_append_left _ hx
  have hwf : ∀ x ∈ ls, x ≠ [] ∧ x.getLast? = some '\n' ∧ x ≠ ['[', ']', '\n'] := by
    intro x hx
    exact ⟨linesGo_ne_nil buf x (hmemls x hx), hends x hx, h3 x (hmemls x hx)⟩
  have hph : parseHeader l = none := parseHeader_none_of_not_newline hlnl
  have hscan : scanGo buf = scanAux [] ls ++ [(curAfter [] ls, l)] := by
    rw [scanGo, hsplit2, scanAux_append]
    simp [scanAux, hph]
  obtain ⟨cs, hemit, _⟩ := scan_emit_roundtrip ls [] hwf
  have hlast : emitChunks (curAfter [] ls) [(curAfter [] ls, l)] = .error .lineNoNewline := by
    simp only [emitChunks]
    rw [if_neg (by simp [hlne]), if_pos (by simp [endsNewline, hlne, hlnl])]
  have hall : emitChunks [] (scanGo buf) = .error .lineNoNewline := by
    rw [hscan]
    exact emitChunks_append_error hemit hlast
  refine ⟨⟨scanAux [] ls, curAfter [] ls, l, hscan, hlne, hlnl⟩, ?_⟩
  simp only [infiltGo, if_neg h1, passthroughFn, hall]

/-- Witness for the amended C10 at the concrete buffer `"[S]\nabc"`. -/
theorem c10_missing_terminator_abort_witness :
    (chars "[S]\nabc" ≠ [] ∧ '\r' ∉ chars "[S]\nabc" ∧
      (chars "[S]\nabc").getLast? ≠ some '\n' ∧
      ∀ l ∈ linesGo (chars "[S]\nabc"), l ≠ ['[', ']', '\n']) ∧
    infiltGo (chars "[S]\nabc") passthroughFn = .panicked .lineNoNewline :=
  ⟨⟨by decide, by decide, by decide, by decide⟩,
    (c10_missing_terminator_abort _ (by decide) (by decide) (by decide) (by decide)).2⟩

/-- Claim C3 (counterexample to the claim as stated): the input buffer
`"[]\n"` makes the scanner yield the record `("", "")`, whose section and
line are both empty. -/
theorem c3_counterexample : ∃ r ∈ scanGo (chars "[]\n"), r.1 = [] ∧ r.2 = [] := by
  decide

theorem scanAux_no_both_empty (lines : List (List Char)) :
    ∀ cur, (∀ l ∈ lines, l ≠ [] ∧ l ≠ ['[', ']', '\n']) →
      ∀ r ∈ scanAux cur lines, ¬(r.1 = [] ∧ r.2 = []) := by
  induction lines with
  | nil => intro cur _ r hr; simp [scanAux] at hr
  | cons line rest ih =>
    intro cur hwf r hr
    obtain ⟨hne, hnh⟩ := hwf line (by simp)
    have hwfr : ∀ l ∈ rest, l ≠ [] ∧ l ≠ ['[', ']', '\n'] := fun l hl => hwf l (by simp [hl])
    cases hph : parseHeader line with
    | some name =>
      simp only [scanAux, hph] at hr
      rcases List.mem_cons.mp hr with h1 | h1
      · subst h1
        intro hcon
        apply hnh
        have : name = [] := hcon.1
        subst this
        simpa using parseHeader_eq_some.mp hph
      · exact ih name hwfr r h1
    | none =>
      simp only [scanAux, hph] at hr
      rcases List.mem_cons.mp hr with h1 | h1
      · subst h1
        intro hcon
        exact hne hcon.2
      · exact ih cur hwfr r h1

/-- Claim C3 (amended): for every input buffer containing no empty-name
header line `[]`, every record the scanner yields has section and line not
both empty (an empty-name header line yields the record `("", "")`). -/
theorem c3_scanner_record_invariant (buf : List Char)
    (h : ∀ l ∈ linesGo buf, l ≠ ['[', ']', '\n']) :
    ∀ r ∈ scanGo buf, ¬(r.1 = [] ∧ r.2 = []) := by
  apply scanAux_no_both_empty
  intro l hl
  exact ⟨linesGo_ne_nil buf l hl, h l hl⟩

/-- Witness for the amended C3 at a concrete buffer. -/
theorem c3_scanner_record_invariant_witness :
    (∀ l ∈ linesGo (chars "x\n[S]\ny\n"), l ≠ ['[', ']', '\n']) ∧
      ∀ r ∈ scanGo (chars "x\n[S]\ny\n"), ¬(r.1 = [] ∧ r.2 = []) :=
  ⟨by decide, c3_scanner_record_invariant _ (by decide)⟩

/-- A buffer using the CRLF line-terminator convention consistently: every
carriage return is immediately followed by a newline and every newline is
immediately preceded by a carriage return. -/
def crlfOnly : List Char → Bool
  | [] => true
  | '\r' :: '\n' :: rest => crlfOnly rest
  | '\r' :: _ => false
  | '\n' :: _ => false
  | _ :: rest => crlfOnly rest

/-- Claim C8 (counterexample to the claim as stated): the buffer `"ab\r\n"`
uses one consistent line-terminator convention (CRLF) throughout, yet the
rewrite operation rejects it with the format error — the code accepts only
linux-style newlines, not any single consistent convention. -/
theorem c8_counterexample :
    crlfOnly (chars "ab\r\n") = true ∧
      infiltGo (chars "ab\r\n") passthroughFn = .err .fmtNewlines := by
  decide

/-- Claim C8 (amended): for every input buffer and transformation function,
the rewrite operation fails with the `expected linux-style newlines` format
error exactly when the buffer contains a carriage-return byte; buffers
without any carriage return are accepted by the scanner (any failure is then
a propagated transformation error or an emit panic, never the format
error). -/
theorem c8_format_error_iff (buf : List Char) (fn : TransformFn) :
    infiltGo buf fn = .err .fmtNewlines ↔ '\r' ∈ buf := by
  constructor
  · intro h
    by_contra hin
    simp only [infiltGo, if_neg hin] at h
    cases h4 : emitChunks [] (fn (scanGo buf)).1 with
    | error p => rw [h4] at h; cases h
    | ok v =>
      obtain ⟨cs, c2⟩ := v
      rw [h4] at h
      cases h5 : (fn (scanGo buf)).2 with
      | none => rw [h5] at h; cases h
      | some e => rw [h5] at h; cases h
  · intro h
    simp [infiltGo, h]

/-- Claim C9: for every input buffer without carriage returns and every
transformation function that returns an error, the driver never returns an
output buffer, and — whenever the emissions made before returning are valid
(no panic) — it returns exactly that error wrapped as `filter inf: %w`. -/
theorem c9_error_atomicity (buf : List Char) (fn : TransformFn) (e : String)
    (h1 : '\r' ∉ buf) (h2 : (fn (scanGo buf)).2 = some e) :
    (∀ out, infiltGo buf fn ≠ .ok out) ∧
    (∀ cs c2, emitChunks [] (fn (scanGo buf)).1 = .ok (cs, c2) →
      infiltGo buf fn = .err (.filterInf e)) := by
  constructor
  · intro out
    simp only [infiltGo, if_neg h1]
    cases h4 : emitChunks [] (fn (scanGo buf)).1 with
    | error p => simp
    | ok v =>
      obtain ⟨cs, c2⟩ := v
      simp [h2]
  · intro cs c2 h4
    simp only [infiltGo, if_neg h1, h4, h2]

/-- A transformation function that emits nothing and fails. -/
def errFn : TransformFn := fun _ => ([], some "boom")

/-- Witness for C9 at a concrete buffer and failing transformation. -/
theorem c9_error_atomicity_witness :
    ('\r' ∉ chars "x\n" ∧ (errFn (scanGo (chars "x\n"))).2 = some "boom") ∧
      infiltGo (chars "x\n") errFn = .err (.filterInf "boom") :=
  ⟨⟨by decide, rfl⟩, (c9_error_atomicity _ errFn "boom" (by decide) rfl).2 [] [] rfl⟩

/- ### Header accounting for the rewrite driver (lines 116-119)

The driver writes a `[section]` header exactly when the emitted section is
non-empty and either the line is empty (a pure-header emission) or the
section differs from the header last written. -/

/-- Number of header lines the driver wrote for section `s` among the
chunks of a run. -/
def headerCount (s : List Char) (cs : List Chunk) : Nat :=
  cs.countP (fun c => c = Chunk.header s)

/-- Number of section transitions into `s` in the emission order, where an
emission with an empty section stays in the current section (`cur` is the
section in effect before the first emission). -/
def transitionsInto (s cur : List Char) : List Rec → Nat
  | [] => 0
  | (sec, _) :: rest =>
    (if (if sec = [] then cur else sec) = s ∧ cur ≠ s then 1 else 0) +
      transitionsInto s (if sec = [] then cur else sec) rest

/-- Number of explicit pure-header emissions of section `s` (empty line,
section equal to `s`). -/
def pureHeaderCount (s : List Char) : List Rec → Nat
  | [] => 0
  | (sec, line) :: rest =>
    (if sec = s ∧ line = [] then 1 else 0) + pureHeaderCount s rest

instance {ε α : Type} [DecidableEq ε] [DecidableEq α] : DecidableEq (Except ε α)
  | .error a, .error b =>
    if h : a = b then .isTrue (by rw [h]) else .isFalse (by intro hc; cases hc; exact h rfl)
  | .error _, .ok _ => .isFalse (by intro hc; cases hc)
  | .ok _, .error _ => .isFalse (by intro hc; cases hc)
  | .ok a, .ok b =>
    if h : a = b then .isTrue (by rw [h]) else .isFalse (by intro hc; cases hc; exact h rfl)

/-- Claim C2 (counterexample to the claim as stated): a transformation
function making two consecutive pure-header emissions of the same section
`S` makes the driver write two `[S]` headers, although the emission order
contains only one section transition into `S`; the output buffer
`"[S]\n[S]\n"` holds the duplicate header. -/
theorem c2_counterexample :
    emitChunks [] [(chars "S", []), (chars "S", [])] =
      .ok ([Chunk.header (chars "S"), Chunk.header (chars "S")], chars "S") ∧
    headerCount (chars "S") [Chunk.header (chars "S"), Chunk.header (chars "S")] = 2 ∧
    transitionsInto (chars "S") [] [(chars "S", []), (chars "S", [])] = 1 ∧
    infiltGo [] (fun _ => ([(chars "S", []), (chars "S", [])], none)) =
      .ok (chars "[S]\n[S]\n") := by
  refine ⟨by decide, by decide, by decide, by decide⟩

/-- Claim C2 (amended): for every transformation function (any emission list
the driver accepts), the number of header lines written for a section `s`
never exceeds the number of section transitions into `s` in the emission
order plus the number of explicit pure-header emissions of `s`; in
particular no duplicate header is written for consecutive content-line
emissions under the same section. -/
theorem c2_header_minimality (es : List Rec) :
    ∀ cur cs cfin s, emitChunks cur es = .ok (cs, cfin) →
      headerCount s cs ≤ transitionsInto s cur es + pureHeaderCount s es := by
  induction es with
  | nil =>
    intro cur cs cfin s h
    simp only [emitChunks] at h
    cases h
    simp [headerCount, transitionsInto, pureHeaderCount]
  | cons e rest ih =>
    intro cur cs cfin s h
    obtain ⟨sec, line⟩ := e
    by_cases hc1 : sec = [] ∧ line = []
    · simp [emitChunks, hc1] at h
    · by_cases hc2 : line ≠ [] ∧ ¬ endsNewline line
      · simp only [emitChunks, if_neg hc1, if_pos hc2] at h
        cases h
      · by_cases hc3 : sec ≠ [] ∧ (line = [] ∨ cur ≠ sec)
        · simp only [emitChunks, if_neg hc1, if_neg hc2, if_pos hc3] at h
          cases h4 : emitChunks sec rest with
          | error q => rw [h4] at h; cases h
          | ok v =>
            obtain ⟨cs', cfin'⟩ := v
            rw [h4] at h
            cases h
            have hIH := ih sec cs' cfin s h4
            have heff : (if sec = [] then cur else sec) = sec := if_neg hc3.1
            have hhc : headerCount s (Chunk.header sec ::
                ((if line = [] then [] else [Chunk.content line]) ++ cs')) =
                (if sec = s then 1 else 0) + headerCount s cs' := by
              by_cases hs : sec = s <;>
                by_cases hl : line = [] <;>
                  simp [headerCount, hs, hl, List.countP_cons] <;> omega
            rw [hhc]
            simp only [transitionsInto, pureHeaderCount, heff]
            have hkey : (if sec = s then 1 else 0) ≤
                (if sec = s ∧ cur ≠ s then 1 else 0) + (if sec = s ∧ line = [] then 1 else 0) := by
              by_cases hs : sec = s
              · rcases hc3.2 with hl | hcur
                · simp [hs, hl]
                · have : cur ≠ s := by rw [← hs]; exact hcur
                  simp [hs, this]
              · simp [hs]
            omega
        · simp only [emitChunks, if_neg hc1, if_neg hc2, if_neg hc3] at h
          cases h4 : emitChunks cur rest with
          | error q => rw [h4] at h; cases h
          | ok v =>
            obtain ⟨cs', cfin'⟩ := v
            rw [h4] at h
            cases h
            have hIH := ih cur cs' cfin s h4
            have heff : (if sec = [] then cur else sec) = cur := by
              by_cases hsec : sec = []
              · simp [hsec]
              · push_neg at hc3
                rw [if_neg hsec]
                exact (hc3 hsec).2.symm
            have hhc : headerCount s ((if line = [] then [] else [Chunk.content line]) ++ cs') =
                headerCount s cs' := by
              by_cases hl : line = [] <;> simp [headerCount, hl, List.countP_cons]
            rw [hhc]
            simp only [transitionsInto, pureHeaderCount, heff]
            omega

/-- Witness for the amended C2: one content emission under section `A`. -/
theorem c2_header_minimality_witness :
    emitChunks [] [(chars "A", chars "x\n")] =
      .ok ([Chunk.header (chars "A"), Chunk.content (chars "x\n")], chars "A") ∧
    headerCount (chars "A") [Chunk.header (chars "A"), Chunk.content (chars "x\n")] ≤
      transitionsInto (chars "A") [] [(chars "A", chars "x\n")] +
        pureHeaderCount (chars "A") [(chars "A", chars "x\n")] :=
  ⟨rfl, c2_header_minimality [(chars "A", chars "x\n")] []
    [Chunk.header (chars "A"), Chunk.content (chars "x\n")] (chars "A") (chars "A") rfl⟩

/- ### The dependency-closure pruner (src/README.md lines 491-512)

`dlldeps` maps a lower-cased module name to its (lower-cased) imported
module names.  Each round, the keys are walked in sorted order; a module is
marked for removal with the list of its dependencies that are not keys of
the current map; all marked modules are then deleted together, a removal
record `(name, iteration, brokenDeps)` is appended per module, and the loop
repeats until a round marks nothing. -/

/-- A dependency map: association list from module name to dependency
names (a Go map has distinct keys; theorems needing this take it as a
`Nodup` hypothesis). -/
abbrev DepMap := List (String × List String)

/-- First-match lookup, the Go map read `dlldeps[name]`. -/
def lookupDeps : DepMap → String → Option (List String)
  | [], _ => none
  | (k, v) :: rest, n => if k = n then some v else lookupDeps rest n

/-- The Go key-presence test `_, ok := dlldeps[dep]`. -/
def memKeys (m : DepMap) (k : String) : Bool := (lookupDeps m k).isSome

/-- Lexicographic comparison of character lists (Go compares strings
byte-wise; for the ASCII module names involved the orders coincide). -/
def leChars : List Char → List Char → Bool
  | [], _ => true
  | _ :: _, [] => false
  | a :: as, b :: bs => if a = b then leChars as bs else decide (a < b)

/-- Go string ordering used by `slices.Sorted`. -/
def leStr (a b : String) : Bool := leChars a.data b.data

/-- Insertion into a sorted list of names. -/
def insertSorted (x : String) : List String → List String
  | [] => [x]
  | y :: ys => if leStr x y then x :: y :: ys else y :: insertSorted x ys

/-- Model of Go `slices.Sorted(maps.Keys(m))`. -/
def sortKeys (l : List String) : List String := l.foldr insertSorted []

/-- Evaluation of one module in a round (lines 495-499): the module is
marked for removal when at least one of its dependencies is not a key of
the current map, tagged with the offending dependency names in order
(duplicates preserved, exactly as the Go `remove[name] = append(...)` loop
does). -/
def markOf (m : DepMap) (name : String) : Option (String × List String) :=
  match lookupDeps m name with
  | none => none
  | some deps =>
    if (deps.filter (fun d => ! memKeys m d)).isEmpty then none
    else some (name, deps.filter (fun d => ! memKeys m d))

/-- One evaluation round (lines 493-500): walk the keys in sorted order and
collect the marked modules. -/
def roundMarks (m : DepMap) : List (String × List String) :=
  (sortKeys (m.map Prod.fst)).filterMap (markOf m)

/-- Deleting every marked key from the map (lines 504-510); the Go loop
deletes them one by one in map-iteration order, which yields the same map
regardless of the order. -/
def removeMarked (m : DepMap) (marks : List (String × List String)) : DepMap :=
  m.filter (fun e => ! marks.any (fun mk => mk.1 == e.1))

/-- The fixed-point loop (lines 491-512), fuelled: returns the retained
map, the removal log `(name, iteration, brokenDeps)` in round order (sorted
within a round), and the number of removal rounds performed. -/
def pruneAux : Nat → DepMap → Nat → DepMap × List (String × Nat × List String) × Nat
  | 0, m, it => (m, [], it)
  | fuel + 1, m, it =>
    let marks := roundMarks m
    if marks.isEmpty then (m, [], it)
    else
      let res := pruneAux fuel (removeMarked m marks) (it + 1)
      (res.1, marks.map (fun mk => (mk.1, it, mk.2)) ++ res.2.1, res.2.2)

/-- The pruner entry point: `m.length + 1` rounds of fuel always suffice
(each removal round strictly shrinks the map). -/
def prune (m : DepMap) : DepMap × List (String × Nat × List String) × Nat :=
  pruneAux (m.length + 1) m 0

/-- Restrict every dependency list of `m` to the names present in `m` (the
"edges restricted to itself" reading of a self-contained retained set). -/
def restrictEdges (m : DepMap) : DepMap :=
  m.map (fun e => (e.1, e.2.filter (fun d => memKeys m d)))

/-- Deduplicate every dependency list (used to state that duplicate edges
are inert). -/
def dedupDeps (m : DepMap) : DepMap := m.map (fun e => (e.1, e.2.dedup))

example : prune [("p", ["q"]), ("q", ["r"]), ("r", [])] =
    ([("p", ["q"]), ("q", ["r"]), ("r", [])], [], 0) := by decide
example : prune [("p", ["q"]), ("q", ["x"])] =
    ([], [("q", 0, ["x"]), ("p", 1, ["q"])], 2) := by decide
example : prune [("a", ["a", "a"]), ("b", ["a", "x", "x"])] =
    ([("a", ["a", "a"])], [("b", 0, ["x", "x"])], 1) := by decide

theorem mem_insertSorted {x y : String} (l : List String) :
    x ∈ insertSorted y l ↔ x = y ∨ x ∈ l := by
  induction l with
  | nil => simp [insertSorted]
  | cons z zs ih =>
    by_cases h : leStr y z
    · simp [insertSorted, h]
    · simp only [insertSorted, if_neg h, List.mem_cons, ih]
      tauto

theorem mem_sortKeys {x : String} (l : List String) : x ∈ sortKeys l ↔ x ∈ l := by
  induction l with
  | nil => simp [sortKeys]
  | cons y ys ih =>
    simp only [sortKeys, List.foldr_cons] at ih ⊢
    rw [mem_insertSorted, ih]
    simp

theorem lookupDeps_mem {m : DepMap} {k : String} {v : List String}
    (h : lookupDeps m k = some v) : (k, v) ∈ m := by
  induction m with
  | nil => simp [lookupDeps] at h
  | cons e rest ih =>
    obtain ⟨k1, v1⟩ := e
    simp only [lookupDeps] at h
    split at h
    · rename_i heq
      cases h
      subst heq
      simp
    · simp [ih h]

theorem lookupDeps_of_mem {m : DepMap} {k : String} {v : List String}
    (hnd : (m.map Prod.fst).Nodup) (h : (k, v) ∈ m) : lookupDeps m k = some v := by
  induction m with
  | nil => simp at h
  | cons e rest ih =>
    obtain ⟨k1, v1⟩ := e
    simp only [List.map_cons, List.nodup_cons] at hnd
    rcases List.mem_cons.mp h with h1 | h1
    · cases h1
      simp [lookupDeps]
    · have hk : k1 ≠ k := by
        intro he
        subst he
        exact hnd.1 (List.mem_map_of_mem Prod.fst h1)
      simp [lookupDeps, hk, ih hnd.2 h1]

theorem markOf_eq_some {m : DepMap} {nm name : String} {broken : List String}
    (h : markOf m nm = some (name, broken)) :
    nm = name ∧ ∃ deps, lookupDeps m nm = some deps ∧
      broken = deps.filter (fun d => ! memKeys m d) ∧ broken ≠ [] := by
  unfold markOf at h
  split at h
  · cases h
  · rename_i deps hl
    split at h
    · cases h
    · rename_i hne
      cases h
      exact ⟨rfl, deps, hl, rfl, by simpa using hne⟩

theorem roundMarks_no_self {m : DepMap} {name : String} {broken : List String}
    (h : (name, broken) ∈ roundMarks m) : name ∉ broken := by
  simp only [roundMarks, List.mem_filterMap] at h
  obtain ⟨nm, _, hmk⟩ := h
  obtain ⟨heq, deps, hl, hb, _⟩ := markOf_eq_some hmk
  subst heq
  subst hb
  intro hmem
  have h2 := (List.mem_filter.mp hmem).2
  have h3 : memKeys m nm = true := by simp [memKeys, hl]
  simp [h3] at h2

theorem closed_of_roundMarks_nil {m : DepMap} (hnd : (m.map Prod.fst).Nodup)
    (h : roundMarks m = []) : ∀ e ∈ m, ∀ d ∈ e.2, memKeys m d = true := by
  intro e he d hd
  obtain ⟨k, deps⟩ := e
  have hk : k ∈ sortKeys (m.map Prod.fst) :=
    (mem_sortKeys _).mpr (List.mem_map_of_mem Prod.fst he)
  have hnone : markOf m k = none := by
    rw [roundMarks] at h
    exact List.filterMap_eq_nil_iff.mp h k hk
  simp only [markOf, lookupDeps_of_mem hnd he] at hnone
  by_contra hdm
  have hdf : d ∈ deps.filter (fun x => ! memKeys m x) :=
    List.mem_filter.mpr ⟨hd, by simpa using hdm⟩
  split at hnone
  · rename_i hemp
    rw [List.isEmpty_iff] at hemp
    rw [hemp] at hdf
    simp at hdf
  · cases hnone

theorem removeMarked_length_lt {m : DepMap} (h : roundMarks m ≠ []) :
    (removeMarked m (roundMarks m)).length < m.length := by
  rw [removeMarked, List.length_filter_lt_length_iff_exists]
  obtain ⟨mk, hmk⟩ := List.exists_mem_of_ne_nil (roundMarks m) h
  obtain ⟨name, broken⟩ := mk
  have hmk2 := hmk
  simp only [roundMarks, List.mem_filterMap] at hmk2
  obtain ⟨nm, _, hmo⟩ := hmk2
  obtain ⟨heq, deps, hl, _, _⟩ := markOf_eq_some hmo
  subst heq
  refine ⟨(nm, deps), lookupDeps_mem hl, ?_⟩
  have hany : (roundMarks m).any (fun mk => mk.1 == nm) = true :=
    List.any_eq_true.mpr ⟨(nm, broken), hmk, by simp⟩
  simp [hany]

theorem pruneAux_spec : ∀ (fuel : Nat) (m : DepMap) (it : Nat), m.length < fuel →
    roundMarks (pruneAux fuel m it).1 = [] ∧ (pruneAux fuel m it).2.2 ≤ it + m.length := by
  intro fuel
  induction fuel with
  | zero => intro m it h; exact absurd h (Nat.not_lt_zero _)
  | succ fuel ih =>
    intro m it h
    by_cases hm : (roundMarks m).isEmpty
    · simp only [pruneAux, if_pos hm]
      exact ⟨List.isEmpty_iff.mp hm, by omega⟩
    · have hne : roundMarks m ≠ [] := by simpa using hm
      have hlt := removeMarked_length_lt hne
      have hfuel : (removeMarked m (roundMarks m)).length < fuel := by omega
      obtain ⟨h1, h2⟩ := ih (removeMarked m (roundMarks m)) (it + 1) hfuel
      simp only [pruneAux, if_neg hm]
      exact ⟨h1, by omega⟩

theorem pruneAux_sublist : ∀ (fuel : Nat) (m : DepMap) (it : Nat),
    List.Sublist (pruneAux fuel m it).1 m := by
  intro fuel
  induction fuel with
  | zero => intro m it; simp [pruneAux]
  | succ fuel ih =>
    intro m it
    by_cases hm : (roundMarks m).isEmpty
    · simp only [pruneAux, if_pos hm]
      exact List.Sublist.refl m
    · simp only [pruneAux, if_neg hm]
      exact (ih _ _).trans (List.filter_sublist m)

/-- Claim C7: for every dependency map the fixed-point pruning loop reaches
a round that marks nothing (the model's fuel of `length + 1` rounds always
suffices), and the number of removal rounds performed is at most the number
of modules in the map. -/
theorem c7_pruner_termination (m : DepMap) :
    (prune m).2.2 ≤ m.length ∧ roundMarks (prune m).1 = [] := by
  obtain ⟨h1, h2⟩ := pruneAux_spec (m.length + 1) m 0 (by omega)
  exact ⟨by simpa using h2, h1⟩

/-- A set of module names `S` is closed in `m`: every member is a key of
`m` and all of its dependencies are again members. -/
def ClosedIn (m : DepMap) (S : List String) : Prop :=
  ∀ k ∈ S, ∃ deps, lookupDeps m k = some deps ∧ ∀ d ∈ deps, d ∈ S

theorem not_mem_closed_of_marked {m : DepMap} {S : List String} {name : String}
    {broken : List String} (hcl : ClosedIn m S) (h : (name, broken) ∈ roundMarks m) :
    name ∉ S := by
  intro hS
  simp only [roundMarks, List.mem_filterMap] at h
  obtain ⟨nm, _, hmk⟩ := h
  obtain ⟨heq, deps, hl, hb, hbne⟩ := markOf_eq_some hmk
  subst heq
  obtain ⟨deps1, hl1, hdeps1⟩ := hcl nm hS
  rw [hl] at hl1
  cases hl1
  subst hb
  obtain ⟨d, hdmem⟩ := List.exists_mem_of_ne_nil _ hbne
  have hd := List.mem_filter.mp hdmem
  obtain ⟨deps2, hl2, _⟩ := hcl d (hdeps1 d hd.1)
  have h3 : memKeys m d = true := by simp [memKeys, hl2]
  simp [h3] at hd

theorem lookupDeps_filter_of_kept {p : String × List String → Bool} {m : DepMap} {k : String}
    (h : ∀ v, (k, v) ∈ m → p (k, v) = true) :
    lookupDeps (m.filter p) k = lookupDeps m k := by
  induction m with
  | nil => simp
  | cons e rest ih =>
    obtain ⟨k1, v1⟩ := e
    rw [List.filter_cons]
    by_cases hk : k1 = k
    · have hp : p (k1, v1) = true := by
        subst hk
        exact h v1 (List.mem_cons_self _ _)
      rw [if_pos hp]
      simp [lookupDeps, hk]
    · by_cases hp : p (k1, v1) = true
      · rw [if_pos hp]
        simp only [lookupDeps, if_neg hk]
        exact ih (fun v hv => h v (List.mem_cons_of_mem _ hv))
      · rw [if_neg (by simpa using hp)]
        simp only [lookupDeps, if_neg hk]
        exact ih (fun v hv => h v (List.mem_cons_of_mem _ hv))

theorem closedIn_removeMarked {m : DepMap} {S : List String} (hcl : ClosedIn m S) :
    ClosedIn (removeMarked m (roundMarks m)) S := by
  intro k hk
  obtain ⟨deps, hl, hdeps⟩ := hcl k hk
  refine ⟨deps, ?_, hdeps⟩
  have hany : (roundMarks m).any (fun mk => mk.1 == k) = false := by
    rw [List.any_eq_false]
    rintro ⟨name, broken⟩ hmk
    intro he
    rw [beq_iff_eq] at he
    subst he
    exact not_mem_closed_of_marked hcl hmk hk
  have hside : ∀ v, (k, v) ∈ m →
      (fun e => ! (roundMarks m).any (fun mk => mk.1 == e.1)) (k, v) = true := by
    intro v _
    simp [hany]
  rw [removeMarked, lookupDeps_filter_of_kept hside, hl]

theorem closedIn_pruneAux : ∀ (fuel : Nat) (m : DepMap) (it : Nat) {S : List String},
    ClosedIn m S → ClosedIn (pruneAux fuel m it).1 S := by
  intro fuel
  induction fuel with
  | zero => intro m it S h; simpa [pruneAux] using h
  | succ fuel ih =>
    intro m it S h
    by_cases hm : (roundMarks m).isEmpty
    · simpa only [pruneAux, if_pos hm] using h
    · simp only [pruneAux, if_neg hm]
      exact ih _ _ (closedIn_removeMarked h)

/-- Claim C4: for every dependency map with distinct keys, the pruner's
final retained map is closed (every retained module's every dependency is a
retained key), maximal (every closed subset of keys is contained in the
retained keys), and pruning is idempotent: the retained map equals itself
with edges restricted to itself, and re-running the pruner on it returns it
unchanged with an empty removal log and zero removal rounds. -/
theorem c4_pruner_closure_idempotence (m : DepMap) (hnd : (m.map Prod.fst).Nodup) :
    (∀ e ∈ (prune m).1, ∀ d ∈ e.2, memKeys (prune m).1 d = true) ∧
    (∀ S : List String, ClosedIn m S → ∀ k ∈ S, memKeys (prune m).1 k = true) ∧
    restrictEdges (prune m).1 = (prune m).1 ∧
    prune (prune m).1 = ((prune m).1, [], 0) := by
  have hfix : roundMarks (prune m).1 = [] := (pruneAux_spec (m.length + 1) m 0 (by omega)).1
  have hsub : List.Sublist (prune m).1 m := pruneAux_sublist _ m 0
  have hndR : ((prune m).1.map Prod.fst).Nodup := (hsub.map Prod.fst).nodup hnd
  have hclosed := closed_of_roundMarks_nil hndR hfix
  refine ⟨hclosed, ?_, ?_, ?_⟩
  · intro S hS k hk
    have hcl2 : ClosedIn (prune m).1 S := closedIn_pruneAux (m.length + 1) m 0 hS
    obtain ⟨deps, hl, _⟩ := hcl2 k hk
    simp [memKeys, hl]
  · simp only [restrictEdges]
    have hpt : ∀ e ∈ (prune m).1,
        (fun e => (e.1, e.2.filter (fun d => memKeys (prune m).1 d))) e = id e := by
      intro e he
      have hf : e.2.filter (fun d => memKeys (prune m).1 d) = e.2 :=
        List.filter_eq_self.mpr (fun d hd => hclosed e he d hd)
      simp [hf]
    rw [List.map_congr_left hpt, List.map_id]
  · show pruneAux ((prune m).1.length + 1) (prune m).1 0 = _
    simp [pruneAux, hfix]

/-- Witness for C4 at the three-module chain of the spec's Scenario C. -/
theorem c4_pruner_closure_idempotence_witness :
    ((([("p", ["q"]), ("q", ["r"]), ("r", [])] : DepMap).map Prod.fst).Nodup) ∧
    ((∀ e ∈ (prune [("p", ["q"]), ("q", ["r"]), ("r", [])]).1, ∀ d ∈ e.2,
        memKeys (prune [("p", ["q"]), ("q", ["r"]), ("r", [])]).1 d = true) ∧
      (∀ S : List String, ClosedIn [("p", ["q"]), ("q", ["r"]), ("r", [])] S →
        ∀ k ∈ S, memKeys (prune [("p", ["q"]), ("q", ["r"]), ("r", [])]).1 k = true) ∧
      restrictEdges (prune [("p", ["q"]), ("q", ["r"]), ("r", [])]).1 =
        (prune [("p", ["q"]), ("q", ["r"]), ("r", [])]).1 ∧
      prune (prune [("p", ["q"]), ("q", ["r"]), ("r", [])]).1 =
        ((prune [("p", ["q"]), ("q", ["r"]), ("r", [])]).1, [], 0)) :=
  ⟨by decide, c4_pruner_closure_idempotence _ (by decide)⟩

theorem pruneAux_log_no_self : ∀ (fuel : Nat) (m : DepMap) (it : Nat),
    ∀ r ∈ (pruneAux fuel m it).2.1, r.1 ∉ r.2.2 := by
  intro fuel
  induction fuel with
  | zero => intro m it r hr; simp [pruneAux] at hr
  | succ fuel ih =>
    intro m it r hr
    by_cases hm : (roundMarks m).isEmpty
    · simp [pruneAux, hm] at hr
    · simp only [pruneAux, if_neg hm] at hr
      rw [List.mem_append] at hr
      rcases hr with hr | hr
      · obtain ⟨mk, hmk, heq⟩ := List.mem_map.mp hr
        obtain ⟨name, broken⟩ := mk
        cases heq
        simpa using roundMarks_no_self hmk
      · exact ih _ _ r hr

theorem lookupDeps_dedupDeps (m : DepMap) (k : String) :
    lookupDeps (dedupDeps m) k = (lookupDeps m k).map List.dedup := by
  induction m with
  | nil => simp [dedupDeps, lookupDeps]
  | cons e rest ih =>
    obtain ⟨k1, v1⟩ := e
    simp only [dedupDeps, List.map_cons] at ih ⊢
    by_cases h : k1 = k
    · simp [lookupDeps, h]
    · simpa [lookupDeps, h] using ih

theorem memKeys_dedupDeps (m : DepMap) (k : String) :
    memKeys (dedupDeps m) k = memKeys m k := by
  simp only [memKeys, lookupDeps_dedupDeps]
  cases lookupDeps m k <;> simp

theorem keys_dedupDeps (m : DepMap) : (dedupDeps m).map Prod.fst = m.map Prod.fst := by
  simp [dedupDeps, List.map_map, Function.comp]

theorem markOf_dedup_fst (m : DepMap) (nm : String) :
    (markOf (dedupDeps m) nm).map Prod.fst = (markOf m nm).map Prod.fst := by
  simp only [markOf, lookupDeps_dedupDeps]
  cases hl : lookupDeps m nm with
  | none => simp
  | some deps =>
    simp only [Option.map_some']
    have hmk : (fun d => ! memKeys (dedupDeps m) d) = (fun d => ! memKeys m d) := by
      funext d
      rw [memKeys_dedupDeps]
    rw [hmk]
    have h2 : deps.dedup.filter (fun d => ! memKeys m d) = [] ↔
        deps.filter (fun d => ! memKeys m d) = [] := by
      simp only [List.filter_eq_nil_iff, List.mem_dedup]
    by_cases hb : (deps.filter (fun d => ! memKeys m d)).isEmpty
    · have hb1 : deps.filter (fun d => ! memKeys m d) = [] := List.isEmpty_iff.mp hb
      have hb2 : deps.dedup.filter (fun d => ! memKeys m d) = [] := h2.mpr hb1
      simp [hb1, hb2]
    · have hb1 : deps.filter (fun d => ! memKeys m d) ≠ [] := by simpa using hb
      have hb2 : deps.dedup.filter (fun d => ! memKeys m d) ≠ [] := fun hc => hb1 (h2.mp hc)
      rw [if_neg (by simpa using hb2), if_neg (by simpa using hb1)]
      simp

theorem filterMap_map_fst_congr {α β γ : Type} {l : List α} {f g : α → Option (β × γ)}
    (h : ∀ x ∈ l, (f x).map Prod.fst = (g x).map Prod.fst) :
    (l.filterMap f).map Prod.fst = (l.filterMap g).map Prod.fst := by
  induction l with
  | nil => simp
  | cons x xs ih =>
    have hx := h x (List.mem_cons_self _ _)
    have hxs := ih (fun y hy => h y (List.mem_cons_of_mem _ hy))
    cases hf : f x with
    | none =>
      rw [hf] at hx
      have hg : g x = none := Option.map_eq_none'.mp hx.symm
      simp [List.filterMap_cons, hf, hg, hxs]
    | some p1 =>
      rw [hf] at hx
      cases hg : g x with
      | none =>
        rw [hg] at hx
        simp at hx
      | some p2 =>
        rw [hg] at hx
        simp only [Option.map_some', Option.some.injEq] at hx
        simp [List.filterMap_cons, hf, hg, hxs, hx]

theorem roundMarks_dedup_fst (m : DepMap) :
    (roundMarks (dedupDeps m)).map Prod.fst = (roundMarks m).map Prod.fst := by
  simp only [roundMarks, keys_dedupDeps]
  exact filterMap_map_fst_congr (fun nm _ => markOf_dedup_fst m nm)

theorem any_fst_eq_any_map (l : List (String × List String)) (p : String → Bool) :
    l.any (fun mk => p mk.1) = (l.map Prod.fst).any p := by
  induction l with
  | nil => rfl
  | cons e rest ih => simp [ih]

theorem any_key_eq {l₁ l₂ : List (String × List String)}
    (h : l₁.map Prod.fst = l₂.map Prod.fst) (k : String) :
    l₁.any (fun mk => mk.1 == k) = l₂.any (fun mk => mk.1 == k) := by
  rw [any_fst_eq_any_map l₁ (fun n => n == k), any_fst_eq_any_map l₂ (fun n => n == k), h]

theorem filter_key_map_dedup (m : DepMap) (q : String → Bool) :
    (dedupDeps m).filter (fun e => q e.1) = dedupDeps (m.filter (fun e => q e.1)) := by
  induction m with
  | nil => rfl
  | cons e rest ih =>
    obtain ⟨k, v⟩ := e
    by_cases h : q k <;> simp [dedupDeps, List.filter_cons, h] at ih ⊢ <;> exact ih

theorem removeMarked_dedupDeps (m : DepMap) :
    removeMarked (dedupDeps m) (roundMarks (dedupDeps m)) =
      dedupDeps (removeMarked m (roundMarks m)) := by
  have hpred : (fun e : String × List String =>
      ! (roundMarks (dedupDeps m)).any (fun mk => mk.1 == e.1)) =
      (fun e : String × List String => ! (roundMarks m).any (fun mk => mk.1 == e.1)) := by
    funext e
    rw [any_key_eq (roundMarks_dedup_fst m) e.1]
  rw [removeMarked, removeMarked, hpred]
  exact filter_key_map_dedup m (fun k => ! (roundMarks m).any (fun mk => mk.1 == k))

theorem pruneAux_dedup : ∀ (fuel : Nat) (m : DepMap) (it : Nat),
    (pruneAux fuel (dedupDeps m) it).1 = dedupDeps (pruneAux fuel m it).1 ∧
    (pruneAux fuel (dedupDeps m) it).2.1.map (fun r => (r.1, r.2.1)) =
      (pruneAux fuel m it).2.1.map (fun r => (r.1, r.2.1)) ∧
    (pruneAux fuel (dedupDeps m) it).2.2 = (pruneAux fuel m it).2.2 := by
  intro fuel
  induction fuel with
  | zero => intro m it; simp [pruneAux]
  | succ fuel ih =>
    intro m it
    have hnames := roundMarks_dedup_fst m
    by_cases hm : (roundMarks m).isEmpty
    · have hm2 : (roundMarks (dedupDeps m)).isEmpty := by
        rw [List.isEmpty_iff] at hm ⊢
        have h1 : (roundMarks (dedupDeps m)).map Prod.fst = [] := by
          rw [hnames, hm]
          simp
        exact List.map_eq_nil_iff.mp h1
      simp [pruneAux, hm, hm2]
    · have hm2 : ¬ (roundMarks (dedupDeps m)).isEmpty := by
        rw [List.isEmpty_iff] at hm ⊢
        intro hc
        apply hm
        have h1 : (roundMarks m).map Prod.fst = [] := by
          rw [← hnames, hc]
          simp
        exact List.map_eq_nil_iff.mp h1
      obtain ⟨ih1, ih2, ih3⟩ := ih (removeMarked m (roundMarks m)) (it + 1)
      simp only [pruneAux, if_neg hm, if_neg hm2]
      refine ⟨?_, ?_, ?_⟩
      · rw [removeMarked_dedupDeps]
        exact ih1
      · rw [List.map_append, List.map_append]
        have hcomp : ∀ (l : List (String × List String)),
            (l.map (fun mk => (mk.1, it, mk.2))).map
                (fun r : String × Nat × List String => (r.1, r.2.1)) =
              (l.map Prod.fst).map (fun n => (n, it)) := by
          intro l
          simp [List.map_map, Function.comp]
        rw [hcomp, hcomp, hnames, removeMarked_dedupDeps, ih2]
      · rw [removeMarked_dedupDeps]
        exact ih3

/-- Claim C6: for every dependency map, a module is never removed on
account of a self-dependency (its own name never appears among the broken
dependencies of its removal record), and deduplicating every dependency
list changes neither the retained key set nor which modules are removed in
which round. -/
theorem c6_self_and_duplicate_edges_inert (m : DepMap) :
    (∀ r ∈ (prune m).2.1, r.1 ∉ r.2.2) ∧
    (prune (dedupDeps m)).1.map Prod.fst = (prune m).1.map Prod.fst ∧
    (prune (dedupDeps m)).2.1.map (fun r => (r.1, r.2.1)) =
      (prune m).2.1.map (fun r => (r.1, r.2.1)) := by
  have hlen : (dedupDeps m).length = m.length := by simp [dedupDeps]
  obtain ⟨h1, h2, h3⟩ := pruneAux_dedup (m.length + 1) m 0
  refine ⟨pruneAux_log_no_self _ m 0, ?_, ?_⟩
  · show (pruneAux ((dedupDeps m).length + 1) (dedupDeps m) 0).1.map Prod.fst = _
    rw [hlen, h1, keys_dedupDeps]
    rfl
  · show (pruneAux ((dedupDeps m).length + 1) (dedupDeps m) 0).2.1.map _ = _
    rw [hlen, h2]
    rfl

/-- Deleting one key from the map, as the Go `delete(dlldeps, name)`. -/
def deleteKey (m : DepMap) (k : String) : DepMap := m.filter (fun e => ! (e.1 == k))

/-- Deleting a round's marked keys one at a time in the given order. -/
def deleteKeys (m : DepMap) (ks : List String) : DepMap := ks.foldl deleteKey m

/-- The removal records of one round as reported in a given iteration order
over the marked names (the Go `for name, deps := range remove` loop). -/
def roundLogInOrder (m : DepMap) (order : List String) : List (String × List String) :=
  order.filterMap (fun n => (lookupDeps (roundMarks m) n).map (fun b => (n, b)))

/-- Claim C5: at the dependency map `{a: [x], b: [x]}` the first round marks
both `a` and `b`; the Go code reports and deletes them by ranging over the
`remove` map, whose iteration order is unspecified, so the two possible
orders produce removal logs in different orders (and `os.Remove` calls in
different orders), while the retained map is the same either way — the
retained set is deterministic but the removal log and delete order are
not. -/
theorem c5_removal_order_nondeterminism :
    roundMarks [("a", ["x"]), ("b", ["x"])] = [("a", ["x"]), ("b", ["x"])] ∧
    roundLogInOrder [("a", ["x"]), ("b", ["x"])] ["a", "b"] ≠
      roundLogInOrder [("a", ["x"]), ("b", ["x"])] ["b", "a"] ∧
    deleteKeys [("a", ["x"]), ("b", ["x"])] ["a", "b"] =
      deleteKeys [("a", ["x"]), ("b", ["x"])] ["b", "a"] ∧
    (prune [("a", ["x"]), ("b", ["x"])]).1 = [] := by
  refine ⟨by decide, by decide, by decide, by decide⟩
